import Mathlib

/-!
Verification development for the hybrid-retrieval / multi-store consistency
core of a RAG backend.  The definitions below are shallow embeddings of the
TypeScript services:

* `LlmService` (circuit breaker around Groq / HuggingFace calls),
* `RetrievalService` / `RagService` (dedup + rerank, keyword scoring, caches),
* `TrainingService` (saga-style multi-store writes with compensation),
* `RagService.chat` (response-cache fast path).

Machine time (`Date.now()`) is modelled as an explicit `Int` parameter in
milliseconds; floating point relevance scores are modelled as rationals;
outbound provider calls are modelled by injecting their outcome as an
`Except` argument, together with a trace of which effects were issued.
-/

namespace RagBackend

/-! ## Circuit breaker state (llm.service.ts)

`interface CircuitBreakerState { failures; lastFailure; isOpen }`, kept in a
`Map<string, CircuitBreakerState>` initialised with the `groq` and
`huggingface` entries. -/

structure CircuitBreakerState where
  failures : Nat
  lastFailure : Int
  isOpen : Bool
deriving DecidableEq, Repr

/-- The per-provider breaker map, as an association list keyed by service
name (mirrors the JS `Map`; entries are only ever updated, never added). -/
abbrev BreakerMap := List (String × CircuitBreakerState)

def FAILURE_THRESHOLD : Nat := 5

def RECOVERY_TIMEOUT : Int := 30000

def initCircuitBreakers : BreakerMap :=
  [("groq", ⟨0, 0, false⟩), ("huggingface", ⟨0, 0, false⟩)]

def findBreaker (m : BreakerMap) (service : String) : Option CircuitBreakerState :=
  match m.find? (fun p => p.1 == service) with
  | some p => some p.2
  | none => none

def setBreaker (m : BreakerMap) (service : String) (b : CircuitBreakerState) : BreakerMap :=
  m.map (fun p => if p.1 == service then (service, b) else p)

/-- `LlmService.isCircuitOpen(service)`.  Returns whether the call must be
rejected, together with the breaker map after the check (the half-open
transition mutates the stored state: it clears `isOpen` and `failures`). -/
def isCircuitOpen (m : BreakerMap) (service : String) (now : Int) :
    Bool × BreakerMap :=
  match findBreaker m service with
  | none => (false, m)
  | some breaker =>
    if breaker.isOpen then
      if now - breaker.lastFailure > RECOVERY_TIMEOUT then
        (false, setBreaker m service { breaker with isOpen := false, failures := 0 })
      else
        (true, m)
    else
      (false, m)

/-- `LlmService.recordFailure(service)`: increment `failures`, stamp
`lastFailure`, and open the circuit once the threshold is reached. -/
def recordFailure (m : BreakerMap) (service : String) (now : Int) : BreakerMap :=
  match findBreaker m service with
  | none => m
  | some breaker =>
    let b := { breaker with failures := breaker.failures + 1, lastFailure := now }
    if FAILURE_THRESHOLD ≤ b.failures then
      setBreaker m service { b with isOpen := true }
    else
      setBreaker m service b

/-- `LlmService.recordSuccess(service)`: reset `failures` to 0, close. -/
def recordSuccess (m : BreakerMap) (service : String) : BreakerMap :=
  match findBreaker m service with
  | none => m
  | some breaker => setBreaker m service { breaker with failures := 0, isOpen := false }

inductive LlmError where
  | serviceUnavailable
  | providerError
deriving DecidableEq, Repr

/-- Result of one guarded provider call: the breaker map afterwards, the
outcome surfaced to the caller, and whether the wrapped provider function
was actually invoked. -/
structure CallResult (α : Type) where
  state : BreakerMap
  result : Except LlmError α
  invoked : Bool

/-- `LlmService.generateResponse`: circuit check on `groq`, then the Groq
call (its outcome injected as `fn`), recording success or failure. -/
def generateResponse (m : BreakerMap) (now : Int) (fn : Except Unit (List Char)) :
    CallResult (List Char) :=
  let check := isCircuitOpen m "groq" now
  if check.1 then
    ⟨check.2, .error .serviceUnavailable, false⟩
  else
    match fn with
    | .ok s => ⟨recordSuccess check.2 "groq", .ok s, true⟩
    | .error _ => ⟨recordFailure check.2 "groq" now, .error .providerError, true⟩

/-- `LlmService.generateStreamingResponse`: same breaker discipline on
`groq`; the stream is modelled as the list of yielded chunks. -/
def generateStreamingResponse (m : BreakerMap) (now : Int)
    (fn : Except Unit (List (List Char))) : CallResult (List (List Char)) :=
  let check := isCircuitOpen m "groq" now
  if check.1 then
    ⟨check.2, .error .serviceUnavailable, false⟩
  else
    match fn with
    | .ok chunks => ⟨recordSuccess check.2 "groq", .ok chunks, true⟩
    | .error _ => ⟨recordFailure check.2 "groq" now, .error .providerError, true⟩

/-- `LlmService.generateEmbedding`: circuit check on `huggingface`, then the
HF feature-extraction call (outcome injected as `fn`, already normalised to
a single vector), recording success or failure. -/
def generateEmbedding (m : BreakerMap) (now : Int) (fn : Except Unit (List ℚ)) :
    CallResult (List ℚ) :=
  let check := isCircuitOpen m "huggingface" now
  if check.1 then
    ⟨check.2, .error .serviceUnavailable, false⟩
  else
    match fn with
    | .ok v => ⟨recordSuccess check.2 "huggingface", .ok v, true⟩
    | .error _ => ⟨recordFailure check.2 "huggingface" now, .error .providerError, true⟩

/-- The breaker map after `n` consecutive `recordFailure`s on `"groq"` from
the initial map, the `i`-th at time `t i`. -/
def groqFailures (t : Nat → Int) : Nat → BreakerMap
  | 0 => initCircuitBreakers
  | n + 1 => recordFailure (groqFailures t n) "groq" (t (n + 1))

/-- The breaker map after `n` consecutive `recordFailure`s on
`"huggingface"` from the initial map, the `i`-th at time `t i`. -/
def hfFailures (t : Nat → Int) : Nat → BreakerMap
  | 0 => initCircuitBreakers
  | n + 1 => recordFailure (hfFailures t n) "huggingface" (t (n + 1))

/-! ## String primitives for the retrieval pipeline

JS strings are modelled as `List Char`; `toLowerCase`, `split(/\s+/)` and
`String.prototype.includes` are modelled below. -/

/-- `Str` abbreviates the model of a JS string. -/
abbrev Str := List Char

/-- `s.toLowerCase()`. -/
def toLower (s : Str) : Str := s.map Char.toLower

/-- Does `pat` occur at the start of `text`? -/
def listStartsWith : Str → Str → Bool
  | _, [] => true
  | [], _ :: _ => false
  | c :: cs, d :: ds => d == c && listStartsWith cs ds

/-- `text.includes(pat)` — contiguous substring containment (JS
`String.prototype.includes`); the empty pattern is always contained. -/
def includes (text pat : Str) : Bool :=
  if listStartsWith text pat then true
  else
    match text with
    | [] => false
    | _ :: rest => includes rest pat

/-- `s.split(/\s+/)`: split at maximal whitespace runs.  A leading or
trailing run contributes an empty piece, exactly as in JS.  The `inWs`
flag records whether the previous character was part of a whitespace run
(so the run is skipped rather than emitting empty pieces). -/
def splitWsGo : Str → Str → Bool → List Str
  | [], acc, _ => [acc.reverse]
  | c :: rest, acc, inWs =>
    if c.isWhitespace then
      if inWs then
        splitWsGo rest acc true
      else
        acc.reverse :: splitWsGo rest [] true
    else
      splitWsGo rest (c :: acc) false

def splitWs (s : Str) : List Str := splitWsGo s [] false

/-- Truncate to signed 32-bit, as JS bitwise operators do (`hash & hash`). -/
def toInt32 (x : Int) : Int := (x + 2 ^ 31) % 2 ^ 32 - 2 ^ 31

/-- `getContentHash(content)` (retrieval.service.ts / rag.service.ts): the
rolling 32-bit hash `hash = (hash << 5) - hash + charCode` used as the
dedup key. -/
def getContentHash (content : Str) : Int :=
  content.foldl (fun h c => toInt32 (toInt32 (h * 32) - h + (c.toNat : Int))) 0

/-! ## Documents and dedup/rerank
(`RetrievalService.deduplicateAndRerank` and the line-for-line identical
`RagService.fastDeduplicateAndRerank`). -/

/-- A `VectorSearchResult`: `{id, content, score?, metadata}` (metadata is
opaque and never inspected by the functions modelled here, so it is
omitted).  `score` is optional in TS (`doc.score || 0`). -/
structure Doc where
  id : Str
  content : Str
  score : Option ℚ
deriving DecidableEq, Repr

/-- `calculateKeywordScore(content, queryWords)`: +0.1 for every query word
(with multiplicity) contained in the lower-cased content. -/
def calculateKeywordScore (content : Str) (queryWords : List Str) : ℚ :=
  queryWords.foldl
    (fun score w => if includes (toLower content) w then score + 1 / 10 else score) 0

/-- The `uniqueDocs` JS `Map<string, VectorSearchResult>`: insertion-ordered
association list keyed by the content hash (`Map.set` on an existing key
replaces the value in place, keeping the original position). -/
abbrev DocMap := List (Int × Doc)

def docMapFind (m : DocMap) (k : Int) : Option Doc :=
  match m.find? (fun p => p.1 == k) with
  | some p => some p.2
  | none => none

def docMapSet (m : DocMap) (k : Int) (v : Doc) : DocMap :=
  if m.any (fun p => p.1 == k) then
    m.map (fun p => if p.1 == k then (k, v) else p)
  else
    m ++ [(k, v)]

/-- One iteration of the `for (const doc of docs)` loop in
`deduplicateAndRerank`. -/
def dedupStep (queryWords : List Str) (m : DocMap) (doc : Doc) : DocMap :=
  let key := getContentHash doc.content
  let keywordScore := calculateKeywordScore doc.content queryWords
  let totalScore := doc.score.getD 0 + keywordScore
  match docMapFind m key with
  | none => docMapSet m key { doc with score := some totalScore }
  | some existing =>
    if existing.score.getD 0 + calculateKeywordScore existing.content queryWords
        < totalScore then
      docMapSet m key { doc with score := some totalScore }
    else
      m

/-- Stable insertion (descending by `score || 0`): the new element goes
after all existing elements with an equal or higher score, matching the
stable JS `Array.prototype.sort` with comparator `(a,b) => (b.score||0) -
(a.score||0)`. -/
def insertDesc (d : Doc) : List Doc → List Doc
  | [] => [d]
  | e :: rest =>
    if e.score.getD 0 < d.score.getD 0 then d :: e :: rest
    else e :: insertDesc d rest

/-- Stable sort, descending by `score || 0`. -/
def sortByScoreDesc (l : List Doc) : List Doc :=
  l.foldl (fun acc d => insertDesc d acc) []

/-- `deduplicateAndRerank(docs, originalQuery)` with the configured `topK`
(default 5) made explicit. -/
def deduplicateAndRerank (docs : List Doc) (originalQuery : Str) (topK : Nat) :
    List Doc :=
  let queryWords := splitWs (toLower originalQuery)
  let uniqueDocs := docs.foldl (dedupStep queryWords) []
  (sortByScoreDesc (uniqueDocs.map Prod.snd)).take topK

/-- `a` ranks at least as high as `b`: descending order predicate. -/
def scoreGe (a b : Doc) : Prop := b.score.getD 0 ≤ a.score.getD 0

/-- Modelled from the spec for a refinement comparison (C6): the claimed
formula `0.1 × count(DISTINCT query terms found as substrings in content)`.
The code counts matching query words with multiplicity instead. -/
def keywordScoreDistinct (content : Str) (queryWords : List Str) : ℚ :=
  ((queryWords.dedup.countP (fun w => includes (toLower content) w) : ℚ)) / 10

/-! ## TrainingService (training.service.ts): saga with compensation -/

/-- Externally visible store operations issued by one `trainWithData` call
(each constructor records the attempted call with the generated doc id). -/
inductive TrainEffect where
  | vectorUpsert (id : String)
  | keywordIndex (id : String)
  | relationalSave (id : String)
  | vectorDelete (id : String)
  | keywordDelete (id : String)
deriving DecidableEq, Repr

/-- Injected outcomes of the external calls a `trainWithData` invocation
makes: the embedding generation, the three sequential store writes, and the
two compensating deletes (whose outcomes are caught and only logged). -/
structure TrainStepResults where
  embed : Except String Unit
  vectorWrite : Except String Unit
  keywordWrite : Except String Unit
  relationalWrite : Except String Unit
  vectorDeleteRes : Except String Unit
  keywordDeleteRes : Except String Unit

/-- `TrainingService.trainWithData`: embedding first (no compensation),
then sequential vector → keyword → relational writes tracked in `ops`;
on failure, compensating deletes for exactly the stores whose writes
succeeded, with delete failures swallowed (`.catch`, hence
`vectorDeleteRes` / `keywordDeleteRes` never influence the result), and the
original error re-raised.  Returns the trace of issued store operations and
the surfaced outcome. -/
def trainWithData (docId : String) (r : TrainStepResults) :
    List TrainEffect × Except String Unit :=
  match r.embed with
  | .error e => ([], .error e)
  | .ok _ =>
    match r.vectorWrite with
    | .error e => ([.vectorUpsert docId], .error e)
    | .ok _ =>
      match r.keywordWrite with
      | .error e =>
        ([.vectorUpsert docId, .keywordIndex docId, .vectorDelete docId], .error e)
      | .ok _ =>
        match r.relationalWrite with
        | .error e =>
          ([.vectorUpsert docId, .keywordIndex docId, .relationalSave docId,
            .vectorDelete docId, .keywordDelete docId], .error e)
        | .ok _ =>
          ([.vectorUpsert docId, .keywordIndex docId, .relationalSave docId], .ok ())

/-- Did this item settle as fulfilled? -/
def trainOk (item : String × TrainStepResults) : Bool :=
  match (trainWithData item.1 item.2).2 with
  | .ok _ => true
  | .error _ => false

/-- Settlement counting for one concurrency batch (`Promise.allSettled`
followed by the `results.forEach` success/failure tally). -/
def countSettled (batch : List (String × TrainStepResults)) (s f : Nat) : Nat × Nat :=
  batch.foldl
    (fun acc item => if trainOk item then (acc.1 + 1, acc.2) else (acc.1, acc.2 + 1))
    (s, f)

/-- The `for (let i = 0; i < documents.length; i += batchSize)` loop of
`trainBatch` with `batchSize = 5`. -/
def processBatches : List (String × TrainStepResults) → Nat → Nat → Nat × Nat
  | [], s, f => (s, f)
  | d :: rest, s, f =>
    let batch := (d :: rest).take 5
    let next := countSettled batch s f
    processBatches ((d :: rest).drop 5) next.1 next.2
termination_by docs _ _ => docs.length
decreasing_by
  simp [List.length_drop]
  omega

/-- `TrainingService.trainBatch`: per-item outcomes injected; returns the
`{success, failed}` counters. -/
def trainBatch (documents : List (String × TrainStepResults)) : Nat × Nat :=
  processBatches documents 0 0

/-- All-success step outcomes. -/
def okSteps : TrainStepResults :=
  ⟨.ok (), .ok (), .ok (), .ok (), .ok (), .ok ()⟩

/-- Embedding fails before any store write. -/
def failedEmbedSteps : TrainStepResults :=
  ⟨.error "embedding failed", .ok (), .ok (), .ok (), .ok (), .ok ()⟩

/-- The spec scenario: 7 documents, #4 always fails embedding. -/
def sevenDocs : List (String × TrainStepResults) :=
  [("d1", okSteps), ("d2", okSteps), ("d3", okSteps), ("d4", failedEmbedSteps),
   ("d5", okSteps), ("d6", okSteps), ("d7", okSteps)]

/-! ## Caches with TTL (rag.service.ts / retrieval.service.ts) and the
`RagService.chat` fast path -/

def CACHE_TTL : Int := 5 * 60 * 1000

/-- A cache entry `{value..., timestamp}`. -/
structure CacheEntry (α : Type) where
  value : α
  timestamp : Int
deriving Repr, DecidableEq

/-- An insertion-ordered JS `Map` keyed by strings (modelled as `Str`). -/
abbrev CacheStore (α : Type) := List (Str × CacheEntry α)

def cacheGet {α : Type} (store : CacheStore α) (k : Str) : Option (CacheEntry α) :=
  match store.find? (fun p => p.1 == k) with
  | some p => some p.2
  | none => none

def cacheSet {α : Type} (store : CacheStore α) (k : Str) (e : CacheEntry α) :
    CacheStore α :=
  if store.any (fun p => p.1 == k) then
    store.map (fun p => if p.1 == k then (k, e) else p)
  else
    store ++ [(k, e)]

/-- `getCachedQueryVariations`' cache key: `query.slice(0, 50).toLowerCase()`. -/
def queryCacheKey (query : Str) : Str := toLower (query.take 50)

/-- The cache-read decision inside `getCachedQueryVariations`
(retrieval.service.ts and the identical copy in rag.service.ts):
`cached && Date.now() - cached.timestamp < CACHE_TTL`. -/
def readQueryCache (store : CacheStore (List Str)) (query : Str) (now : Int) :
    Option (List Str) :=
  match cacheGet store (queryCacheKey query) with
  | some cached => if now - cached.timestamp < CACHE_TTL then some cached.value else none
  | none => none

/-- `RagService.generateCacheKey(message, instructions)`:
`` `${instructions.slice(0, 50)}|${message.slice(0, 100)}`.toLowerCase() ``. -/
def generateCacheKey (message instructions : Str) : Str :=
  toLower (instructions.take 50 ++ ['|'] ++ message.take 100)

/-- The response-cache read in `RagService.chat` (and `chatStream`): value
is the `(response, context)` pair. -/
def readResponseCache (store : CacheStore (Str × List Str)) (message instructions : Str)
    (now : Int) : Option (Str × List Str) :=
  match cacheGet store (generateCacheKey message instructions) with
  | some cached => if now - cached.timestamp < CACHE_TTL then some cached.value else none
  | none => none

def userRole : Str := ['u', 's', 'e', 'r']

def assistantRole : Str :=
  ['a', 's', 's', 'i', 's', 't', 'a', 'n', 't']

/-- The state `RagService.chat` reads and writes for one session: the
session history and the process-wide response cache. -/
structure ChatState where
  history : List (Str × Str)
  responseCache : CacheStore (Str × List Str)

/-- Observable outcome of one `chat` call. -/
structure ChatOutcome where
  state : ChatState
  answer : Str
  retrievalInvoked : Bool
  generationInvoked : Bool
  persisted : Bool

/-- `RagService.chat` to the depth the cache claims need.  The cached fast
path appends the user and cached assistant turns, persists and returns;
the full path runs retrieval only when indexed data exists, appends the
user turn, generates (`genResult` injected), caches the response keyed by
`generateCacheKey` with the current timestamp, appends the assistant turn
and persists. -/
def chat (st : ChatState) (instructions message : Str) (now : Int)
    (hasIndexedData : Bool) (retrievedDocs : List Doc) (genResult : Str)
    (topK : Nat) : ChatOutcome :=
  match readResponseCache st.responseCache message instructions now with
  | some cached =>
    { state := { st with history := st.history
        ++ [(userRole, message), (assistantRole, cached.1)] },
      answer := cached.1,
      retrievalInvoked := false,
      generationInvoked := false,
      persisted := true }
  | none =>
    let allRelevantDocs := if hasIndexedData then retrievedDocs else []
    let relevantDocs := deduplicateAndRerank allRelevantDocs message topK
    { state :=
        { history := st.history ++ [(userRole, message), (assistantRole, genResult)],
          responseCache := cacheSet st.responseCache (generateCacheKey message instructions)
            ⟨(genResult, relevantDocs.map (fun d => d.content)), now⟩ },
      answer := genResult,
      retrievalInvoked := hasIndexedData,
      generationInvoked := true,
      persisted := true }

/-- Message pair exhibiting the truncated-prefix key collision: both are
100 copies of `a` followed by a differing final character. -/
def collisionMsg1 : Str := List.replicate 100 'a' ++ ['X']

def collisionMsg2 : Str := List.replicate 100 'a' ++ ['Y']

/-! ## Theorems -/

/-! ### Circuit breaker lemmas -/

theorem findBreaker_setBreaker (m : BreakerMap) (s : String) (b b' : CircuitBreakerState)
    (h : findBreaker m s = some b) : findBreaker (setBreaker m s b') s = some b' := by
  induction m with
  | nil => simp [findBreaker] at h
  | cons p rest ih =>
    by_cases hp : p.1 = s
    · simp [findBreaker, setBreaker, List.find?, hp]
    · have hne : (p.1 == s) = false := by simp [hp]
      have h' : findBreaker rest s = some b := by
        simpa [findBreaker, List.find?, hne] using h
      have := ih h'
      simpa [findBreaker, setBreaker, List.find?, hne, hp] using this

theorem isCircuitOpen_stays_open (m : BreakerMap) (s : String) (now : Int)
    (b : CircuitBreakerState) (hb : findBreaker m s = some b) (hopen : b.isOpen = true)
    (h : now - b.lastFailure ≤ RECOVERY_TIMEOUT) :
    isCircuitOpen m s now = (true, m) := by
  unfold isCircuitOpen
  rw [hb]
  simp only [hopen, if_true]
  rw [if_neg (by omega)]

theorem isCircuitOpen_half_open (m : BreakerMap) (s : String) (now : Int)
    (b : CircuitBreakerState) (hb : findBreaker m s = some b) (hopen : b.isOpen = true)
    (h : now - b.lastFailure > RECOVERY_TIMEOUT) :
    isCircuitOpen m s now =
      (false, setBreaker m s { b with isOpen := false, failures := 0 }) := by
  unfold isCircuitOpen
  rw [hb]
  simp only [hopen, if_true]
  rw [if_pos h]

theorem isCircuitOpen_closed (m : BreakerMap) (s : String) (now : Int)
    (b : CircuitBreakerState) (hb : findBreaker m s = some b) (hopen : b.isOpen = false) :
    isCircuitOpen m s now = (false, m) := by
  unfold isCircuitOpen
  rw [hb]
  simp [hopen]

theorem generateResponse_fail_fast (m : BreakerMap) (now : Int)
    (fn : Except Unit (List Char)) (hm : isCircuitOpen m "groq" now = (true, m)) :
    generateResponse m now fn = ⟨m, .error .serviceUnavailable, false⟩ := by
  simp [generateResponse, hm]

theorem generateStreamingResponse_fail_fast (m : BreakerMap) (now : Int)
    (fn : Except Unit (List (List Char))) (hm : isCircuitOpen m "groq" now = (true, m)) :
    generateStreamingResponse m now fn = ⟨m, .error .serviceUnavailable, false⟩ := by
  simp [generateStreamingResponse, hm]

theorem generateEmbedding_fail_fast (m : BreakerMap) (now : Int)
    (fn : Except Unit (List ℚ)) (hm : isCircuitOpen m "huggingface" now = (true, m)) :
    generateEmbedding m now fn = ⟨m, .error .serviceUnavailable, false⟩ := by
  simp [generateEmbedding, hm]

theorem groqFailures_five (t : Nat → Int) :
    findBreaker (groqFailures t 5) "groq" = some ⟨5, t 5, true⟩ := by
  rfl

theorem hfFailures_five (t : Nat → Int) :
    findBreaker (hfFailures t 5) "huggingface" = some ⟨5, t 5, true⟩ := by
  rfl

/-- C1: after exactly FAILURE_THRESHOLD (5) consecutive recorded failures
the circuit for the provider is open, and the next call (within the
recovery window) to `generateResponse`, `generateStreamingResponse` or
`generateEmbedding` returns the service-unavailable error without invoking
the wrapped provider function; after only 4 failures the provider is still
invoked; a recorded success resets the failure count to 0 and closes the
circuit. -/
theorem circuit_fail_fast_at_threshold (t : Nat → Int) (now : Int)
    (hg : now - t 5 ≤ RECOVERY_TIMEOUT)
    (fnG : Except Unit (List Char)) (fnS : Except Unit (List (List Char)))
    (fnE : Except Unit (List ℚ)) :
    findBreaker (groqFailures t 5) "groq" = some ⟨5, t 5, true⟩ ∧
    generateResponse (groqFailures t 5) now fnG =
      ⟨groqFailures t 5, .error .serviceUnavailable, false⟩ ∧
    generateStreamingResponse (groqFailures t 5) now fnS =
      ⟨groqFailures t 5, .error .serviceUnavailable, false⟩ ∧
    findBreaker (hfFailures t 5) "huggingface" = some ⟨5, t 5, true⟩ ∧
    generateEmbedding (hfFailures t 5) now fnE =
      ⟨hfFailures t 5, .error .serviceUnavailable, false⟩ ∧
    (generateResponse (groqFailures t 4) now fnG).invoked = true ∧
    findBreaker (recordSuccess (groqFailures t 5) "groq") "groq" = some ⟨0, t 5, false⟩ := by
  have hopenG : isCircuitOpen (groqFailures t 5) "groq" now = (true, groqFailures t 5) :=
    isCircuitOpen_stays_open _ _ _ _ (groqFailures_five t) rfl hg
  have hopenH : isCircuitOpen (hfFailures t 5) "huggingface" now = (true, hfFailures t 5) :=
    isCircuitOpen_stays_open _ _ _ _ (hfFailures_five t) rfl hg
  refine ⟨groqFailures_five t, generateResponse_fail_fast _ _ _ hopenG,
    generateStreamingResponse_fail_fast _ _ _ hopenG, hfFailures_five t,
    generateEmbedding_fail_fast _ _ _ hopenH, ?_, ?_⟩
  · cases fnG <;> rfl
  · rfl

/-- Closed witness for `circuit_fail_fast_at_threshold`. -/
theorem circuit_fail_fast_at_threshold_witness :
    (generateResponse (groqFailures (fun _ => 0) 5) 0 (Except.ok [])).invoked = false := by
  have h := circuit_fail_fast_at_threshold (fun _ => 0) 0 (by decide)
    (Except.ok []) (Except.ok []) (Except.ok [])
  rw [h.2.1]

/-- C2 counterexample: drive the `groq` breaker open with failures at times
1..5, then check the circuit at time 30006 (past the recovery timeout).
The first check is allowed through (probe), but — contrary to the claim —
a second check on the post-transition state before any outcome is recorded
is ALSO allowed through, and recording a probe failure leaves the circuit
CLOSED (failures = 1) rather than reopening it. -/
theorem half_open_counterexample :
    (isCircuitOpen (groqFailures (fun n => (n : Int)) 5) "groq" 30006).1 = false ∧
    (isCircuitOpen
      ((isCircuitOpen (groqFailures (fun n => (n : Int)) 5) "groq" 30006).2)
      "groq" 30006).1 = false ∧
    findBreaker
      (recordFailure
        ((isCircuitOpen (groqFailures (fun n => (n : Int)) 5) "groq" 30006).2)
        "groq" 30006) "groq" = some ⟨1, 30006, false⟩ := by
  decide

/-- C2 amended: once a circuit has been open for longer than
RECOVERY_TIMEOUT since the last failure, the next circuit check transitions
the stored state to closed with `failures = 0` *before* the probe runs;
consequently any later check before the probe's outcome is recorded is also
allowed through, a successful probe leaves the count at 0 with the circuit
closed, and a failing probe merely sets the count to 1 with the circuit
still closed (it reopens only after FAILURE_THRESHOLD further failures). -/
theorem half_open_amended (m : BreakerMap) (s : String) (now now' tf : Int)
    (b : CircuitBreakerState) (hb : findBreaker m s = some b) (hopen : b.isOpen = true)
    (h : now - b.lastFailure > RECOVERY_TIMEOUT) :
    isCircuitOpen m s now =
      (false, setBreaker m s { b with isOpen := false, failures := 0 }) ∧
    (isCircuitOpen (setBreaker m s { b with isOpen := false, failures := 0 }) s now').1
      = false ∧
    findBreaker
      (recordFailure (setBreaker m s { b with isOpen := false, failures := 0 }) s tf) s
      = some ⟨1, tf, false⟩ ∧
    findBreaker
      (recordSuccess (setBreaker m s { b with isOpen := false, failures := 0 }) s) s
      = some ⟨0, b.lastFailure, false⟩ := by
  have hm' : findBreaker (setBreaker m s { b with isOpen := false, failures := 0 }) s
      = some ⟨0, b.lastFailure, false⟩ := findBreaker_setBreaker m s b _ hb
  refine ⟨isCircuitOpen_half_open m s now b hb hopen h, ?_, ?_, ?_⟩
  · rw [isCircuitOpen_closed _ _ _ _ hm' rfl]
  · unfold recordFailure
    rw [hm']
    simp only [FAILURE_THRESHOLD]
    rw [if_neg (by omega)]
    exact findBreaker_setBreaker _ _ _ _ hm'
  · unfold recordSuccess
    rw [hm']
    exact findBreaker_setBreaker _ _ _ _ hm'

/-- Closed witness for `half_open_amended`. -/
theorem half_open_amended_witness :
    findBreaker
      (recordFailure
        (setBreaker (groqFailures (fun n => (n : Int)) 5) "groq"
          { failures := 0, lastFailure := 5, isOpen := false }) "groq" 40001) "groq"
      = some ⟨1, 40001, false⟩ := by
  have h := half_open_amended (groqFailures (fun n => (n : Int)) 5) "groq"
    40000 0 40001 ⟨5, 5, true⟩ (by decide) rfl (by decide)
  exact h.2.2.1

/-! ### DocMap lemmas -/

theorem docMapFind_eq_none_iff (m : DocMap) (k : Int) :
    docMapFind m k = none ↔ m.any (fun p => p.1 == k) = false := by
  unfold docMapFind
  constructor
  · intro h
    cases hfind : m.find? (fun p => p.1 == k) with
    | none =>
      rw [List.any_eq_false]
      intro p hp
      have := List.find?_eq_none.mp hfind p hp
      simpa using this
    | some q => rw [hfind] at h; simp at h
  · intro h
    cases hfind : m.find? (fun p => p.1 == k) with
    | none => rfl
    | some q =>
      have hq := List.find?_some hfind
      have hmem := List.mem_of_find?_eq_some hfind
      rw [List.any_eq_false] at h
      exact absurd hq (by simpa using h q hmem)

theorem docMapSet_of_absent (m : DocMap) (k : Int) (v : Doc)
    (h : m.any (fun p => p.1 == k) = false) : docMapSet m k v = m ++ [(k, v)] := by
  simp [docMapSet, h]

theorem keys_docMapSet_of_present (m : DocMap) (k : Int) (v : Doc)
    (h : m.any (fun p => p.1 == k) = true) :
    (docMapSet m k v).map Prod.fst = m.map Prod.fst := by
  simp only [docMapSet, h, if_true, List.map_map]
  apply List.map_congr_left
  intro p _
  by_cases hp : p.1 = k
  · simp [hp]
  · simp [hp]

theorem mem_docMapSet (m : DocMap) (k : Int) (v : Doc) (p : Int × Doc)
    (h : p ∈ docMapSet m k v) : p ∈ m ∨ p = (k, v) := by
  unfold docMapSet at h
  by_cases hc : m.any (fun p => p.1 == k) = true
  · rw [if_pos hc] at h
    obtain ⟨q, hq, hqp⟩ := List.mem_map.mp h
    by_cases hqk : q.1 = k
    · right; rw [← hqp]; simp [hqk]
    · left; rw [← hqp]; simpa [hqk] using hq
  · rw [if_neg hc] at h
    rcases List.mem_append.mp h with h' | h'
    · exact Or.inl h'
    · right; simpa using h'

theorem docMapFind_append_singleton (m : DocMap) (k k' : Int) (v : Doc)
    (h : docMapFind m k' = none) :
    docMapFind (m ++ [(k, v)]) k' = if k = k' then some v else none := by
  induction m with
  | nil =>
    by_cases hk : k = k'
    · simp [docMapFind, List.find?, hk]
    · have hb : (k == k') = false := by simp [hk]
      simp [docMapFind, List.find?, hb, hk]
  | cons p rest ih =>
    have hp : (p.1 == k') = false := by
      by_contra hc
      have : p.1 = k' := by
        cases hb : (p.1 == k') with
        | false => exact absurd hb hc
        | true => exact beq_iff_eq.mp hb
      simp [docMapFind, List.find?, this] at h
    have h' : docMapFind rest k' = none := by
      simpa [docMapFind, List.find?, hp] using h
    simpa [docMapFind, List.find?, hp] using ih h'

/-! ### dedupStep lemmas -/

theorem mem_dedupStep (qws : List Str) (m : DocMap) (d : Doc) (p : Int × Doc)
    (h : p ∈ dedupStep qws m d) :
    p ∈ m ∨ (p.1 = getContentHash d.content ∧ p.2.content = d.content ∧
      ∃ t, p.2.score = some t) := by
  simp only [dedupStep] at h
  split at h
  · rcases mem_docMapSet _ _ _ _ h with h' | h'
    · exact Or.inl h'
    · right; rw [h']; exact ⟨rfl, rfl, _, rfl⟩
  · split at h
    · rcases mem_docMapSet _ _ _ _ h with h' | h'
      · exact Or.inl h'
      · right; rw [h']; exact ⟨rfl, rfl, _, rfl⟩
    · exact Or.inl h

theorem mem_foldl_dedupStep (qws : List Str) (l : List Doc) :
    ∀ (m : DocMap) (p : Int × Doc), p ∈ l.foldl (dedupStep qws) m →
    p ∈ m ∨ ∃ d ∈ l, p.1 = getContentHash d.content ∧ p.2.content = d.content ∧
      ∃ t, p.2.score = some t := by
  induction l with
  | nil => intro m p h; exact Or.inl h
  | cons d rest ih =>
    intro m p h
    rcases ih (dedupStep qws m d) p h with h' | ⟨e, he, h1, h2, h3⟩
    · rcases mem_dedupStep qws m d p h' with h'' | ⟨h1, h2, h3⟩
      · exact Or.inl h''
      · exact Or.inr ⟨d, List.mem_cons_self d rest, h1, h2, h3⟩
    · exact Or.inr ⟨e, List.mem_cons_of_mem d he, h1, h2, h3⟩

theorem docMapFind_some_any (m : DocMap) (k : Int) (v : Doc)
    (h : docMapFind m k = some v) : m.any (fun p => p.1 == k) = true := by
  by_contra hc
  have hfalse : m.any (fun p => p.1 == k) = false := by
    cases hb : m.any (fun p => p.1 == k) with
    | true => exact absurd hb hc
    | false => rfl
  rw [← docMapFind_eq_none_iff] at hfalse
  rw [h] at hfalse
  exact Option.noConfusion hfalse

theorem keys_dedupStep_nodup (qws : List Str) (m : DocMap) (d : Doc)
    (h : (m.map Prod.fst).Nodup) : ((dedupStep qws m d).map Prod.fst).Nodup := by
  simp only [dedupStep]
  split
  case _ hfind =>
    have hany := (docMapFind_eq_none_iff _ _).mp hfind
    rw [docMapSet_of_absent _ _ _ hany]
    have hk : getContentHash d.content ∉ m.map Prod.fst := by
      intro hmem
      obtain ⟨p, hp, hpk⟩ := List.mem_map.mp hmem
      rw [List.any_eq_false] at hany
      have hne := hany p hp
      simp only [beq_iff_eq] at hne
      exact hne hpk
    simp [List.nodup_append, h, hk]
  case _ existing hfind =>
    split
    · have hany := docMapFind_some_any _ _ _ hfind
      rw [keys_docMapSet_of_present _ _ _ hany]
      exact h
    · exact h

theorem keys_foldl_dedupStep_nodup (qws : List Str) (l : List Doc) :
    ∀ m : DocMap, (m.map Prod.fst).Nodup →
      ((l.foldl (dedupStep qws) m).map Prod.fst).Nodup := by
  induction l with
  | nil => intro m h; exact h
  | cons d rest ih => intro m h; exact ih _ (keys_dedupStep_nodup qws m d h)

/-! ### Sorting lemmas (stable descending sort by `score || 0`) -/

theorem mem_insertDesc (d : Doc) (l : List Doc) (x : Doc) :
    x ∈ insertDesc d l ↔ x = d ∨ x ∈ l := by
  induction l with
  | nil => simp [insertDesc]
  | cons e rest ih =>
    simp only [insertDesc]
    split
    · simp [List.mem_cons]
    · simp [List.mem_cons, ih]
      tauto

theorem insertDesc_sorted (d : Doc) (l : List Doc) (h : l.Pairwise scoreGe) :
    (insertDesc d l).Pairwise scoreGe := by
  induction l with
  | nil => simp [insertDesc]
  | cons e rest ih =>
    rw [List.pairwise_cons] at h
    obtain ⟨he, hrest⟩ := h
    simp only [insertDesc]
    split
    case isTrue hc =>
      refine List.Pairwise.cons ?_ (List.Pairwise.cons he hrest)
      intro x hx
      rcases List.mem_cons.mp hx with rfl | hx'
      · exact le_of_lt hc
      · exact le_trans (he x hx') (le_of_lt hc)
    case isFalse hc =>
      refine List.Pairwise.cons ?_ (ih hrest)
      intro x hx
      rcases (mem_insertDesc d rest x).mp hx with rfl | hx'
      · exact not_lt.mp hc
      · exact he x hx'

theorem sortByScoreDesc_sorted (l : List Doc) : (sortByScoreDesc l).Pairwise scoreGe := by
  have haux : ∀ (l' : List Doc) (acc : List Doc), acc.Pairwise scoreGe →
      (l'.foldl (fun acc d => insertDesc d acc) acc).Pairwise scoreGe := by
    intro l'
    induction l' with
    | nil => intro acc h; exact h
    | cons d rest ih => intro acc h; exact ih _ (insertDesc_sorted d acc h)
  exact haux l [] (by simp)

theorem insertDesc_perm (d : Doc) (l : List Doc) : List.Perm (insertDesc d l) (d :: l) := by
  induction l with
  | nil => exact List.Perm.refl _
  | cons e rest ih =>
    simp only [insertDesc]
    split
    · exact List.Perm.refl _
    · exact (ih.cons e).trans (List.Perm.swap d e rest)

theorem foldl_insertDesc_perm (l : List Doc) :
    ∀ acc : List Doc,
      List.Perm (l.foldl (fun acc d => insertDesc d acc) acc) (acc ++ l) := by
  induction l with
  | nil => intro acc; simp
  | cons d rest ih =>
    intro acc
    have h1 := ih (insertDesc d acc)
    have h2 : List.Perm (insertDesc d acc ++ rest) ((d :: acc) ++ rest) :=
      (insertDesc_perm d acc).append_right rest
    have h3 : List.Perm ((d :: acc) ++ rest) (acc ++ d :: rest) := by
      simp only [List.cons_append]
      exact List.perm_middle.symm
    exact (h1.trans h2).trans h3

theorem sortByScoreDesc_perm (l : List Doc) : List.Perm (sortByScoreDesc l) l := by
  simpa [sortByScoreDesc] using foldl_insertDesc_perm l []

theorem insertDesc_append_of_ge (d : Doc) (l : List Doc)
    (h : ∀ e ∈ l, ¬ e.score.getD 0 < d.score.getD 0) : insertDesc d l = l ++ [d] := by
  induction l with
  | nil => rfl
  | cons e rest ih =>
    simp only [insertDesc]
    rw [if_neg (h e (List.mem_cons_self e rest))]
    rw [ih (fun x hx => h x (List.mem_cons_of_mem _ hx))]
    simp

theorem foldl_insertDesc_of_sorted (l : List Doc) :
    ∀ acc : List Doc, l.Pairwise scoreGe → (∀ a ∈ acc, ∀ b ∈ l, scoreGe a b) →
      l.foldl (fun acc d => insertDesc d acc) acc = acc ++ l := by
  induction l with
  | nil => intro acc _ _; simp
  | cons d rest ih =>
    intro acc hl hcross
    rw [List.pairwise_cons] at hl
    obtain ⟨hd, hrest⟩ := hl
    have h1 : insertDesc d acc = acc ++ [d] :=
      insertDesc_append_of_ge d acc
        (fun e he => not_lt.mpr (hcross e he d (List.mem_cons_self d rest)))
    simp only [List.foldl_cons, h1]
    rw [ih (acc ++ [d]) hrest ?_]
    · simp
    · intro a ha b hb
      rcases List.mem_append.mp ha with ha' | ha'
      · exact hcross a ha' b (List.mem_cons_of_mem _ hb)
      · have : a = d := by simpa using ha'
        rw [this]
        exact hd b hb

theorem sortByScoreDesc_of_sorted (l : List Doc) (h : l.Pairwise scoreGe) :
    sortByScoreDesc l = l := by
  simpa [sortByScoreDesc] using foldl_insertDesc_of_sorted l [] h (by simp)

/-! ### Fold over fresh keys (used for the idempotence analysis) -/

theorem dedupStep_of_fresh (qws : List Str) (m : DocMap) (d : Doc)
    (hfind : docMapFind m (getContentHash d.content) = none) :
    dedupStep qws m d = m ++
      [(getContentHash d.content,
        { d with score := some (d.score.getD 0 + calculateKeywordScore d.content qws) })] := by
  simp only [dedupStep, hfind]
  exact docMapSet_of_absent _ _ _ ((docMapFind_eq_none_iff _ _).mp hfind)

theorem foldl_dedupStep_fresh (qws : List Str) (l : List Doc) :
    ∀ m : DocMap,
      (∀ e ∈ l, docMapFind m (getContentHash e.content) = none) →
      l.Pairwise (fun a b => getContentHash a.content ≠ getContentHash b.content) →
      l.foldl (dedupStep qws) m = m ++ l.map (fun e =>
        (getContentHash e.content,
         { e with score := some (e.score.getD 0 + calculateKeywordScore e.content qws) })) := by
  induction l with
  | nil => intro m _ _; simp
  | cons d rest ih =>
    intro m hfresh hpair
    rw [List.pairwise_cons] at hpair
    obtain ⟨hd, hrest⟩ := hpair
    have hstep := dedupStep_of_fresh qws m d (hfresh d (List.mem_cons_self d rest))
    rw [List.foldl_cons, hstep, ih _ ?_ hrest]
    · simp
    · intro e he
      rw [docMapFind_append_singleton m _ _ _ (hfresh e (List.mem_cons_of_mem d he))]
      rw [if_neg (hd e he)]

/-! ### Shared facts about the output of `deduplicateAndRerank` -/

theorem dedupRerank_length_le (docs : List Doc) (query : Str) (topK : Nat) :
    (deduplicateAndRerank docs query topK).length ≤ topK := by
  simp only [deduplicateAndRerank]
  exact List.length_take_le _ _

theorem dedupRerank_sorted (docs : List Doc) (query : Str) (topK : Nat) :
    (deduplicateAndRerank docs query topK).Pairwise scoreGe := by
  simp only [deduplicateAndRerank]
  exact (sortByScoreDesc_sorted _).sublist (List.take_sublist _ _)

theorem dedupRerank_pairwise_ne (docs : List Doc) (query : Str) (topK : Nat) :
    (deduplicateAndRerank docs query topK).Pairwise
      (fun a b => getContentHash a.content ≠ getContentHash b.content) := by
  simp only [deduplicateAndRerank]
  set qws := splitWs (toLower query) with hqws
  set M := docs.foldl (dedupStep qws) [] with hM
  have hkeys : (M.map Prod.fst).Nodup :=
    keys_foldl_dedupStep_nodup qws docs [] (by simp)
  have hcorrect : ∀ p ∈ M, p.1 = getContentHash p.2.content := by
    intro p hp
    rcases mem_foldl_dedupStep qws docs [] p hp with h' | ⟨d, _, h1, h2, _⟩
    · simp at h'
    · rw [h1, h2]
  have h1 : M.Pairwise (fun p q => p.1 ≠ q.1) := by
    rw [List.Nodup, List.pairwise_map] at hkeys
    exact hkeys
  have h2 : M.Pairwise (fun p q =>
      getContentHash p.2.content ≠ getContentHash q.2.content) := by
    refine h1.imp_of_mem ?_
    intro a b ha hb hne
    rw [← hcorrect a ha, ← hcorrect b hb]
    exact hne
  have h3 : (M.map Prod.snd).Pairwise
      (fun a b => getContentHash a.content ≠ getContentHash b.content) :=
    List.pairwise_map.mpr h2
  have h4 := ((sortByScoreDesc_perm (M.map Prod.snd)).pairwise_iff
    (fun h => Ne.symm h)).mpr h3
  exact h4.sublist (List.take_sublist _ _)

theorem dedupRerank_mem (docs : List Doc) (query : Str) (topK : Nat) (e : Doc)
    (he : e ∈ deduplicateAndRerank docs query topK) :
    ∃ d ∈ docs, e.content = d.content ∧ ∃ t, e.score = some t := by
  simp only [deduplicateAndRerank] at he
  have h1 : e ∈ sortByScoreDesc
      ((docs.foldl (dedupStep (splitWs (toLower query))) []).map Prod.snd) :=
    List.mem_of_mem_take he
  have h2 := (sortByScoreDesc_perm _).mem_iff.mp h1
  obtain ⟨p, hp, hpe⟩ := List.mem_map.mp h2
  rcases mem_foldl_dedupStep _ docs [] p hp with h' | ⟨d, hd, _, hcont, ht⟩
  · simp at h'
  · exact ⟨d, hd, by rw [← hpe]; exact hcont, by rw [← hpe]; exact ht⟩

/-- The keyword score as an explicit count: 0.1 per query word (counted
with multiplicity) occurring in the lower-cased content. -/
theorem calculateKeywordScore_eq_countP (c : Str) (qws : List Str) :
    calculateKeywordScore c qws =
      ((qws.countP (fun w => includes (toLower c) w) : ℚ)) / 10 := by
  have haux : ∀ (ws : List Str) (a : ℚ),
      ws.foldl (fun score w => if includes (toLower c) w then score + 1 / 10 else score) a
        = a + ((ws.countP (fun w => includes (toLower c) w) : ℚ)) / 10 := by
    intro ws
    induction ws with
    | nil => intro a; simp
    | cons w rest ih =>
      intro a
      simp only [List.foldl_cons, List.countP_cons]
      by_cases hw : includes (toLower c) w
      · rw [if_pos hw, ih]
        simp only [hw, if_true]
        push_cast
        ring
      · rw [if_neg hw, ih]
        simp only [hw, if_false]
        push_cast
        ring
  simpa [calculateKeywordScore] using haux qws 0

/-- C5: for every input document list and query, the output of
`deduplicateAndRerank` has at most `topK` elements, contains no two entries
whose contents have the same dedup key (content hash), and is sorted in
descending order of the stored total score. -/
theorem dedup_rerank_bound_unique_sorted (docs : List Doc) (query : Str) (topK : Nat) :
    (deduplicateAndRerank docs query topK).length ≤ topK ∧
    (deduplicateAndRerank docs query topK).Pairwise
      (fun a b => getContentHash a.content ≠ getContentHash b.content) ∧
    (deduplicateAndRerank docs query topK).Pairwise scoreGe :=
  ⟨dedupRerank_length_le docs query topK, dedupRerank_pairwise_ne docs query topK,
   dedupRerank_sorted docs query topK⟩

/-- C4 counterexample: one document whose content contains the query word.
A single application stores score 0 + 0.1 = 1/10; applying the function
again to its own output adds the keyword bonus a second time, giving 1/5,
so the claimed idempotence (same elements, same scores, same order) fails. -/
theorem dedup_rerank_not_idempotent :
    deduplicateAndRerank (deduplicateAndRerank [⟨['1'], ['q'], none⟩] ['q'] 5) ['q'] 5 ≠
      deduplicateAndRerank [⟨['1'], ['q'], none⟩] ['q'] 5 := by
  have h1 : deduplicateAndRerank [⟨['1'], ['q'], none⟩] ['q'] 5
      = [⟨['1'], ['q'], some (1/10)⟩] := by
    norm_num [deduplicateAndRerank, dedupStep, docMapFind, docMapSet, calculateKeywordScore,
      splitWs, splitWsGo, toLower, includes, listStartsWith, sortByScoreDesc, insertDesc,
      List.find?, List.any, List.foldl]
  have h2 : deduplicateAndRerank [⟨['1'], ['q'], some (1/10)⟩] ['q'] 5
      = [⟨['1'], ['q'], some (1/5)⟩] := by
    norm_num [deduplicateAndRerank, dedupStep, docMapFind, docMapSet, calculateKeywordScore,
      splitWs, splitWsGo, toLower, includes, listStartsWith, sortByScoreDesc, insertDesc,
      List.find?, List.any, List.foldl]
  rw [h1, h2]
  intro hcontra
  simp only [List.cons.injEq, Doc.mk.injEq, Option.some.injEq, and_true] at hcontra
  norm_num at hcontra

/-- C4 amended: `deduplicateAndRerank` is idempotent on inputs for which no
query word occurs in any candidate content (every candidate keyword score
is 0).  In general a second application adds each kept document's keyword
score to its stored score again, as the counterexample shows. -/
theorem dedup_rerank_idempotent_of_no_keyword_hits (docs : List Doc) (query : Str)
    (topK : Nat)
    (h : ∀ d ∈ docs, calculateKeywordScore d.content (splitWs (toLower query)) = 0) :
    deduplicateAndRerank (deduplicateAndRerank docs query topK) query topK =
      deduplicateAndRerank docs query topK := by
  have hpair := dedupRerank_pairwise_ne docs query topK
  have hsorted := dedupRerank_sorted docs query topK
  have hlen := dedupRerank_length_le docs query topK
  have hkw : ∀ e ∈ deduplicateAndRerank docs query topK,
      calculateKeywordScore e.content (splitWs (toLower query)) = 0 := by
    intro e he
    obtain ⟨d, hd, hcont, _⟩ := dedupRerank_mem docs query topK e he
    rw [hcont]
    exact h d hd
  have hscore : ∀ e ∈ deduplicateAndRerank docs query topK, ∃ t, e.score = some t := by
    intro e he
    obtain ⟨d, _, _, ht⟩ := dedupRerank_mem docs query topK e he
    exact ht
  conv_lhs => rw [deduplicateAndRerank]
  rw [foldl_dedupStep_fresh _ _ [] (fun e _ => rfl) hpair]
  have hmap : ((deduplicateAndRerank docs query topK).map (fun e =>
      (getContentHash e.content,
       { e with score := some (e.score.getD 0
           + calculateKeywordScore e.content (splitWs (toLower query))) }))).map Prod.snd
      = deduplicateAndRerank docs query topK := by
    rw [List.map_map]
    have hcongr : ∀ e ∈ deduplicateAndRerank docs query topK,
        (Prod.snd ∘ fun e => (getContentHash e.content,
          { e with score := some (e.score.getD 0
              + calculateKeywordScore e.content (splitWs (toLower query))) })) e = e := by
      intro e he
      obtain ⟨t, ht⟩ := hscore e he
      simp only [Function.comp]
      rw [hkw e he]
      cases e with
      | mk eid econt escore =>
        simp only [Doc.mk.injEq, and_true, true_and]
        simp only at ht
        rw [ht]
        simp
    rw [List.map_congr_left hcongr]
    simp
  rw [List.nil_append, hmap, sortByScoreDesc_of_sorted _ hsorted,
    List.take_of_length_le hlen]

/-- Closed witness for `dedup_rerank_idempotent_of_no_keyword_hits`: a
document whose content does not contain the query word. -/
theorem dedup_rerank_idempotent_witness :
    deduplicateAndRerank (deduplicateAndRerank [⟨['1'], ['a'], some 1⟩] ['z'] 5) ['z'] 5 =
      deduplicateAndRerank [⟨['1'], ['a'], some 1⟩] ['z'] 5 := by
  apply dedup_rerank_idempotent_of_no_keyword_hits
  intro d hd
  simp only [List.mem_singleton] at hd
  rw [hd]
  decide

/-- C6 counterexample.  (a) With query `"a a"` and content `"a"`, the code
scores 0.2 (each occurrence of the duplicated term counts) while the claimed
distinct-count formula gives 0.1.  (b) With two same-content candidates
(scores 0 and 1/20) and query `"x"`, the second candidate has the strictly
higher total score (1/20 + 1/10 > 0 + 1/10), yet the code keeps the FIRST:
the duplicate-resolution test re-adds the incumbent keyword score to its
already-boosted stored score. -/
theorem keyword_score_counterexample :
    calculateKeywordScore ['a'] (splitWs (toLower ['a', ' ', 'a'])) ≠
      keywordScoreDistinct ['a'] (splitWs (toLower ['a', ' ', 'a'])) ∧
    deduplicateAndRerank [⟨['1'], ['x'], some 0⟩, ⟨['2'], ['x'], some (1/20)⟩] ['x'] 5
      = [⟨['1'], ['x'], some (1/10)⟩] ∧
    (0 : ℚ) + calculateKeywordScore ['x'] (splitWs (toLower ['x'])) <
      1/20 + calculateKeywordScore ['x'] (splitWs (toLower ['x'])) := by
  have hs : splitWs (toLower ['a', ' ', 'a']) = [['a'], ['a']] := by decide
  have hd : ([['a'], ['a']] : List Str).dedup = [['a']] := by decide
  have hinc : includes (toLower ['a']) ['a'] = true := by decide
  have hincx : includes (toLower ['x']) ['x'] = true := by decide
  have hsx : splitWs (toLower ['x']) = [['x']] := by decide
  refine ⟨?_, ?_, ?_⟩
  · rw [hs]
    norm_num [calculateKeywordScore, keywordScoreDistinct, hd, hinc, List.foldl]
  · norm_num [deduplicateAndRerank, dedupStep, docMapFind, docMapSet, calculateKeywordScore,
      splitWs, splitWsGo, toLower, includes, listStartsWith, sortByScoreDesc, insertDesc,
      List.find?, List.any, List.foldl]
  · rw [hsx]
    norm_num [calculateKeywordScore, hincx, List.foldl]

/-- C6 amended: the keyword score is 0.1 × the number of query-word
OCCURRENCES (with multiplicity) contained in the lower-cased content;
the total score is provider score + keyword score; and when two candidates
share a dedup key the incumbent is kept unless the challenger's total score
strictly exceeds the incumbent's stored (already keyword-boosted) score
plus the incumbent's keyword score counted a second time; the kept
candidate's stored score is its total score from insertion time. -/
theorem dedup_keep_rule (d1 d2 : Doc) (query : Str) (topK : Nat)
    (hk : getContentHash d2.content = getContentHash d1.content) (ht : 1 ≤ topK) :
    calculateKeywordScore d1.content (splitWs (toLower query)) =
      (((splitWs (toLower query)).countP
        (fun w => includes (toLower d1.content) w) : ℚ)) / 10 ∧
    deduplicateAndRerank [d1, d2] query topK =
      (if d1.score.getD 0 + calculateKeywordScore d1.content (splitWs (toLower query))
            + calculateKeywordScore d1.content (splitWs (toLower query))
          < d2.score.getD 0 + calculateKeywordScore d2.content (splitWs (toLower query)) then
        [{ d2 with score := some (d2.score.getD 0
            + calculateKeywordScore d2.content (splitWs (toLower query))) }]
      else
        [{ d1 with score := some (d1.score.getD 0
            + calculateKeywordScore d1.content (splitWs (toLower query))) }]) := by
  refine ⟨calculateKeywordScore_eq_countP d1.content _, ?_⟩
  simp only [deduplicateAndRerank, List.foldl_cons, List.foldl_nil]
  have hstep1 : dedupStep (splitWs (toLower query)) [] d1 =
      [(getContentHash d1.content,
        { d1 with score := some (d1.score.getD 0
            + calculateKeywordScore d1.content (splitWs (toLower query))) })] := by
    simpa using dedupStep_of_fresh (splitWs (toLower query)) [] d1 rfl
  rw [hstep1]
  have hfind : docMapFind
      [(getContentHash d1.content,
        { d1 with score := some (d1.score.getD 0
            + calculateKeywordScore d1.content (splitWs (toLower query))) })]
      (getContentHash d2.content) =
      some { d1 with score := some (d1.score.getD 0
          + calculateKeywordScore d1.content (splitWs (toLower query))) } := by
    simp [docMapFind, List.find?, hk]
  simp only [dedupStep, hfind, Option.getD_some]
  split_ifs with hc
  · have hset : docMapSet
        [(getContentHash d1.content,
          { d1 with score := some (d1.score.getD 0
              + calculateKeywordScore d1.content (splitWs (toLower query))) })]
        (getContentHash d2.content)
        { d2 with score := some (d2.score.getD 0
            + calculateKeywordScore d2.content (splitWs (toLower query))) } =
        [(getContentHash d2.content,
          { d2 with score := some (d2.score.getD 0
              + calculateKeywordScore d2.content (splitWs (toLower query))) })] := by
      simp [docMapSet, List.any, hk]
    rw [hset]
    cases topK with
    | zero => omega
    | succ n => simp [sortByScoreDesc, insertDesc, List.take]
  · cases topK with
    | zero => omega
    | succ n => simp [sortByScoreDesc, insertDesc, List.take]

/-- Closed witness for `dedup_keep_rule`. -/
theorem dedup_keep_rule_witness :
    (deduplicateAndRerank [⟨['1'], ['x'], some 0⟩, ⟨['2'], ['x'], some (1/20)⟩]
      ['x'] 5).length = 1 := by
  have h := dedup_keep_rule ⟨['1'], ['x'], some 0⟩ ⟨['2'], ['x'], some (1/20)⟩
    ['x'] 5 rfl (by decide)
  rw [h.2]
  split <;> rfl

/-- C3: if the vector write succeeds and the keyword write throws, the
trace contains exactly one compensating vector delete (for the same doc
id), no relational write and no keyword delete are issued, and the
original error is re-raised regardless of the compensation outcomes
(`vdel`, `kdel` are arbitrary and do not influence the result). -/
theorem saga_rollback_on_keyword_failure (docId : String) (e : String)
    (relW vdel kdel : Except String Unit) :
    trainWithData docId ⟨.ok (), .ok (), .error e, relW, vdel, kdel⟩ =
      ([.vectorUpsert docId, .keywordIndex docId, .vectorDelete docId], .error e) ∧
    (trainWithData docId ⟨.ok (), .ok (), .error e, relW, vdel, kdel⟩).1.count
      (.vectorDelete docId) = 1 ∧
    TrainEffect.relationalSave docId ∉
      (trainWithData docId ⟨.ok (), .ok (), .error e, relW, vdel, kdel⟩).1 ∧
    TrainEffect.keywordDelete docId ∉
      (trainWithData docId ⟨.ok (), .ok (), .error e, relW, vdel, kdel⟩).1 ∧
    (trainWithData docId ⟨.ok (), .ok (), .error e, relW, vdel, kdel⟩).2 = .error e := by
  refine ⟨rfl, ?_, ?_, ?_, rfl⟩
  · simp [trainWithData, List.count_cons]
  · simp [trainWithData]
  · simp [trainWithData]

theorem countSettled_eq (batch : List (String × TrainStepResults)) :
    ∀ s f, countSettled batch s f =
      (s + batch.countP trainOk, f + batch.countP (fun i => !(trainOk i))) := by
  induction batch with
  | nil => intro s f; simp [countSettled]
  | cons d rest ih =>
    intro s f
    have hstep : countSettled (d :: rest) s f =
        countSettled rest (if trainOk d then s + 1 else s)
          (if trainOk d then f else f + 1) := by
      simp only [countSettled, List.foldl_cons]
      by_cases hd : trainOk d <;> simp [hd]
    rw [hstep, ih]
    by_cases hd : trainOk d <;> simp [hd, List.countP_cons] <;> omega

theorem countP_trainOk_add_not (l : List (String × TrainStepResults)) :
    l.countP trainOk + l.countP (fun i => !(trainOk i)) = l.length := by
  induction l with
  | nil => simp
  | cons d rest ih =>
    by_cases hd : trainOk d <;> simp [List.countP_cons, hd] <;> omega

theorem processBatches_eq (n : Nat) :
    ∀ docs : List (String × TrainStepResults), docs.length ≤ n → ∀ s f,
      processBatches docs s f =
        (s + docs.countP trainOk, f + docs.countP (fun i => !(trainOk i))) := by
  induction n with
  | zero =>
    intro docs hn s f
    have hd : docs = [] := List.length_eq_zero.mp (Nat.le_zero.mp hn)
    subst hd
    simp [processBatches]
  | succ n ih =>
    intro docs hn s f
    match docs with
    | [] => simp [processBatches]
    | d :: rest =>
      rw [processBatches]
      rw [countSettled_eq]
      rw [ih ((d :: rest).drop 5) (by simp only [List.length_drop, List.length_cons]; simp only [List.length_cons] at hn; omega)]
      have hsplit : ∀ p : (String × TrainStepResults) → Bool,
          (d :: rest).countP p =
            ((d :: rest).take 5).countP p + ((d :: rest).drop 5).countP p := by
        intro p
        conv_lhs => rw [← List.take_append_drop 5 (d :: rest)]
        rw [List.countP_append]
      rw [hsplit trainOk, hsplit (fun i => !(trainOk i))]
      simp only [Prod.mk.injEq]
      omega

/-- C9: `trainBatch` processes every item with allSettled semantics in
batches of 5: one item's failure aborts nothing; the returned pair is
exactly (number of fulfilled items, number of rejected items), which sums
to the input length.  In the spec scenario of 7 documents where #4 fails
embedding, the result is (6, 1) and no store operation (hence no
compensation) is issued for #4. -/
theorem trainBatch_partial_failure (documents : List (String × TrainStepResults)) :
    trainBatch documents =
      (documents.countP trainOk, documents.countP (fun i => !(trainOk i))) ∧
    (trainBatch documents).1 + (trainBatch documents).2 = documents.length ∧
    trainBatch sevenDocs = (6, 1) ∧
    (trainWithData "d4" failedEmbedSteps).1 = [] := by
  have hmain : ∀ docs : List (String × TrainStepResults),
      trainBatch docs = (docs.countP trainOk, docs.countP (fun i => !(trainOk i))) := by
    intro docs
    have := processBatches_eq docs.length docs le_rfl 0 0
    simpa [trainBatch] using this
  refine ⟨hmain documents, ?_, ?_, rfl⟩
  · rw [hmain documents]
    exact countP_trainOk_add_not documents
  · rw [hmain sevenDocs]
    decide

/-! ### Cache lemmas -/

theorem cacheGet_map_set {α : Type} (store : CacheStore α) (k : Str) (e : CacheEntry α)
    (h : store.any (fun p => p.1 == k) = true) :
    cacheGet (store.map (fun p => if p.1 == k then (k, e) else p)) k = some e := by
  induction store with
  | nil => simp at h
  | cons p rest ih =>
    by_cases hp : p.1 = k
    · have hbeq : (p.1 == k) = true := by simp [hp]
      unfold cacheGet
      rw [List.map_cons, if_pos hbeq, List.find?_cons_of_pos _ (by simp)]
    · have hne : (p.1 == k) = false := by simp [hp]
      have hrest : rest.any (fun q => q.1 == k) = true := by
        simp only [List.any_cons, hne, Bool.false_or] at h
        exact h
      have hih := ih hrest
      unfold cacheGet at hih ⊢
      rw [List.map_cons, if_neg (by simp [hp]), List.find?_cons_of_neg _ (by simp [hp])]
      exact hih

theorem cacheGet_append_singleton {α : Type} (store : CacheStore α) (k : Str)
    (e : CacheEntry α) (h : store.any (fun p => p.1 == k) = false) :
    cacheGet (store ++ [(k, e)]) k = some e := by
  induction store with
  | nil =>
    unfold cacheGet
    rw [List.nil_append, List.find?_cons_of_pos _ (by simp)]
  | cons p rest ih =>
    rw [List.any_cons] at h
    have hne : (p.1 == k) = false := by
      cases hb : (p.1 == k) with
      | false => rfl
      | true => rw [hb] at h; simp at h
    have hrest : rest.any (fun q => q.1 == k) = false := by
      simp only [hne, Bool.false_or] at h
      exact h
    have hih := ih hrest
    unfold cacheGet at hih ⊢
    rw [List.cons_append, List.find?_cons_of_neg _ (by simp [hne])]
    exact hih

theorem cacheGet_cacheSet {α : Type} (store : CacheStore α) (k : Str) (e : CacheEntry α) :
    cacheGet (cacheSet store k e) k = some e := by
  unfold cacheSet
  by_cases hany : store.any (fun p => p.1 == k) = true
  · rw [if_pos hany]
    exact cacheGet_map_set store k e hany
  · rw [if_neg hany]
    refine cacheGet_append_singleton store k e ?_
    simp only [Bool.not_eq_true] at hany
    exact hany

/-- C7: a cache entry read 1 ms before its TTL expires is a hit returning
the stored value; a read 1 ms after the TTL is a miss, for both the
query-variation cache and the response cache (CACHE_TTL = 5 minutes). -/
theorem cache_ttl_boundary (qstore : CacheStore (List Str))
    (rstore : CacheStore (Str × List Str)) (query message instructions : Str)
    (e1 : CacheEntry (List Str)) (e2 : CacheEntry (Str × List Str))
    (h1 : cacheGet qstore (queryCacheKey query) = some e1)
    (h2 : cacheGet rstore (generateCacheKey message instructions) = some e2) :
    readQueryCache qstore query (e1.timestamp + CACHE_TTL - 1) = some e1.value ∧
    readQueryCache qstore query (e1.timestamp + CACHE_TTL + 1) = none ∧
    readResponseCache rstore message instructions (e2.timestamp + CACHE_TTL - 1)
      = some e2.value ∧
    readResponseCache rstore message instructions (e2.timestamp + CACHE_TTL + 1)
      = none := by
  refine ⟨?_, ?_, ?_, ?_⟩
  · simp only [readQueryCache, h1]
    rw [if_pos (by omega)]
  · simp only [readQueryCache, h1]
    rw [if_neg (by omega)]
  · simp only [readResponseCache, h2]
    rw [if_pos (by omega)]
  · simp only [readResponseCache, h2]
    rw [if_neg (by omega)]

/-- Closed witness for `cache_ttl_boundary`. -/
theorem cache_ttl_boundary_witness :
    readQueryCache [(queryCacheKey ['q'], ⟨[['v']], 0⟩)] ['q']
      ((0 : Int) + CACHE_TTL - 1) = some [['v']] ∧
    readQueryCache [(queryCacheKey ['q'], ⟨[['v']], 0⟩)] ['q']
      ((0 : Int) + CACHE_TTL + 1) = none := by
  have h := cache_ttl_boundary [(queryCacheKey ['q'], ⟨[['v']], 0⟩)]
    [(generateCacheKey ['m'] ['i'], ⟨(['r'], []), 0⟩)] ['q'] ['m'] ['i']
    ⟨[['v']], 0⟩ ⟨(['r'], []), 0⟩ rfl rfl
  exact ⟨h.1, h.2.1⟩

/-- The record produced by the non-cached path of `chat` (first call). -/
theorem chat_of_miss (st : ChatState) (instructions message : Str) (now : Int)
    (hasData : Bool) (docs : List Doc) (gen : Str) (topK : Nat)
    (hmiss : readResponseCache st.responseCache message instructions now = none) :
    chat st instructions message now hasData docs gen topK =
      { state :=
          { history := st.history ++ [(userRole, message), (assistantRole, gen)],
            responseCache := cacheSet st.responseCache
              (generateCacheKey message instructions)
              ⟨(gen, (deduplicateAndRerank (if hasData then docs else []) message
                  topK).map (fun d => d.content)), now⟩ },
        answer := gen,
        retrievalInvoked := hasData,
        generationInvoked := true,
        persisted := true } := by
  simp only [chat, hmiss]

/-- The record produced by the cached fast path of `chat`. -/
theorem chat_of_hit (st : ChatState) (instructions message : Str) (now : Int)
    (hasData : Bool) (docs : List Doc) (gen : Str) (topK : Nat) (v : Str × List Str)
    (hhit : readResponseCache st.responseCache message instructions now = some v) :
    chat st instructions message now hasData docs gen topK =
      { state := { st with history := st.history
          ++ [(userRole, message), (assistantRole, v.1)] },
        answer := v.1,
        retrievalInvoked := false,
        generationInvoked := false,
        persisted := true } := by
  simp only [chat, hhit]

/-- After a miss-path call, a read of the same key within the TTL hits the
entry just cached. -/
theorem readResponseCache_after_set (store : CacheStore (Str × List Str))
    (message instructions : Str) (t1 t2 : Int) (v : Str × List Str)
    (hfresh : t2 - t1 < CACHE_TTL) :
    readResponseCache
      (cacheSet store (generateCacheKey message instructions) ⟨v, t1⟩)
      message instructions t2 = some v := by
  unfold readResponseCache
  rw [cacheGet_cacheSet]
  simp only []
  rw [if_pos hfresh]

/-- C8: two `chat` calls with identical (instructions, message), the first
a cache miss, the second within CACHE_TTL (5 minutes) of the first: the
second call returns the identical answer the first call generated and
cached, appends exactly the user turn and the cached assistant turn to the
history, persists, and invokes neither retrieval nor the completion
provider. -/
theorem cached_chat_turn (st0 : ChatState) (instructions message : Str)
    (t1 t2 : Int) (hasData : Bool) (docs : List Doc) (gen : Str) (topK : Nat)
    (hmiss : readResponseCache st0.responseCache message instructions t1 = none)
    (hfresh : t2 - t1 < CACHE_TTL) :
    (chat (chat st0 instructions message t1 hasData docs gen topK).state
        instructions message t2 hasData docs gen topK).answer
      = (chat st0 instructions message t1 hasData docs gen topK).answer ∧
    (chat st0 instructions message t1 hasData docs gen topK).answer = gen ∧
    (chat (chat st0 instructions message t1 hasData docs gen topK).state
        instructions message t2 hasData docs gen topK).state.history
      = (chat st0 instructions message t1 hasData docs gen topK).state.history
        ++ [(userRole, message), (assistantRole, gen)] ∧
    (chat (chat st0 instructions message t1 hasData docs gen topK).state
        instructions message t2 hasData docs gen topK).retrievalInvoked = false ∧
    (chat (chat st0 instructions message t1 hasData docs gen topK).state
        instructions message t2 hasData docs gen topK).generationInvoked = false ∧
    (chat (chat st0 instructions message t1 hasData docs gen topK).state
        instructions message t2 hasData docs gen topK).persisted = true := by
  rw [chat_of_miss st0 instructions message t1 hasData docs gen topK hmiss]
  rw [chat_of_hit _ instructions message t2 hasData docs gen topK
    (gen, (deduplicateAndRerank (if hasData then docs else []) message topK).map
      (fun d => d.content))
    (readResponseCache_after_set _ message instructions t1 t2 _ hfresh)]
  exact ⟨rfl, rfl, rfl, rfl, rfl, rfl⟩

/-- Closed witness for `cached_chat_turn`. -/
theorem cached_chat_turn_witness :
    (chat (chat ⟨[], []⟩ [] ['m'] 0 false [] ['o', 'k'] 5).state
        [] ['m'] 1 false [] ['o', 'k'] 5).answer = ['o', 'k'] ∧
    (chat (chat ⟨[], []⟩ [] ['m'] 0 false [] ['o', 'k'] 5).state
        [] ['m'] 1 false [] ['o', 'k'] 5).generationInvoked = false := by
  have h := cached_chat_turn ⟨[], []⟩ [] ['m'] 0 1 false [] ['o', 'k'] 5 rfl
    (by decide)
  exact ⟨h.1.trans h.2.1, h.2.2.2.2.1⟩

/-- The cache keys of the two collision messages coincide: the key only
sees the first 100 characters of the message. -/
theorem generateCacheKey_collision (instructions : Str) :
    generateCacheKey collisionMsg2 instructions
      = generateCacheKey collisionMsg1 instructions := by
  unfold generateCacheKey collisionMsg1 collisionMsg2
  rw [List.take_left' (by simp), List.take_left' (by simp)]

/-- C10: the response-cache key is the lower-cased
`instructions[0..50) ++ "|" ++ message[0..100)`, so two distinct messages
agreeing on their first 100 characters collide: after a first (miss) call
for `collisionMsg1`, a fresh call for the distinct `collisionMsg2` within
the TTL returns the answer generated for `collisionMsg1` without invoking
generation or retrieval. -/
theorem response_cache_prefix_collision (st0 : ChatState) (instructions : Str)
    (t1 t2 : Int) (hasData : Bool) (docs : List Doc) (gen : Str) (topK : Nat)
    (hmiss : readResponseCache st0.responseCache collisionMsg1 instructions t1 = none)
    (hfresh : t2 - t1 < CACHE_TTL) :
    collisionMsg1 ≠ collisionMsg2 ∧
    toLower (collisionMsg1.take 100) = toLower (collisionMsg2.take 100) ∧
    (chat (chat st0 instructions collisionMsg1 t1 hasData docs gen topK).state
        instructions collisionMsg2 t2 hasData docs gen topK).answer = gen ∧
    (chat (chat st0 instructions collisionMsg1 t1 hasData docs gen topK).state
        instructions collisionMsg2 t2 hasData docs gen topK).generationInvoked
      = false ∧
    (chat (chat st0 instructions collisionMsg1 t1 hasData docs gen topK).state
        instructions collisionMsg2 t2 hasData docs gen topK).retrievalInvoked
      = false := by
  have hne : collisionMsg1 ≠ collisionMsg2 := by
    unfold collisionMsg1 collisionMsg2
    intro hcontra
    have := List.append_cancel_left hcontra
    simp at this
  have htake : toLower (collisionMsg1.take 100) = toLower (collisionMsg2.take 100) := by
    unfold collisionMsg1 collisionMsg2
    rw [List.take_left' (by simp), List.take_left' (by simp)]
  have hread2 : readResponseCache
      (chat st0 instructions collisionMsg1 t1 hasData docs gen topK).state.responseCache
      collisionMsg2 instructions t2
      = some (gen, (deduplicateAndRerank (if hasData then docs else [])
          collisionMsg1 topK).map (fun d => d.content)) := by
    rw [chat_of_miss st0 instructions collisionMsg1 t1 hasData docs gen topK hmiss]
    unfold readResponseCache
    rw [generateCacheKey_collision instructions, cacheGet_cacheSet]
    simp only []
    rw [if_pos hfresh]
  rw [chat_of_hit _ instructions collisionMsg2 t2 hasData docs gen topK _ hread2]
  exact ⟨hne, htake, rfl, rfl, rfl⟩

/-- Closed witness for `response_cache_prefix_collision`. -/
theorem response_cache_prefix_collision_witness :
    (chat (chat ⟨[], []⟩ [] collisionMsg1 0 false [] ['o', 'k'] 5).state
        [] collisionMsg2 1 false [] ['o', 'k'] 5).answer = ['o', 'k'] ∧
    (chat (chat ⟨[], []⟩ [] collisionMsg1 0 false [] ['o', 'k'] 5).state
        [] collisionMsg2 1 false [] ['o', 'k'] 5).generationInvoked = false := by
  have h := response_cache_prefix_collision ⟨[], []⟩ [] 0 1 false [] ['o', 'k'] 5 rfl
    (by decide)
  exact ⟨h.2.2.1, h.2.2.2.1⟩

end RagBackend

